import Mathlib

/-!
# fusedav-rs — block cache and download coordinator, verified claims

A shallow embedding of the core of `fusedav-rs`:

* `src/blockfile/mod.rs` — the sparse block-cache file (`BlockFile`,
  `BlockFileHeader`, `BlockInfo`);
* `src/fs/webdav_fs_file_downloader.rs` — the download coordinator's
  locking discipline (modelled as an event sequence);
* `src/webdav/mod.rs` — the `Content-Range` handling of
  `WebDAVClient::download`.

Modelling conventions:

* Machine integers are `Nat` with an explicit `% 2 ^ 32` / `% 2 ^ 64`
  wherever the Rust arithmetic can wrap.  Arithmetic follows release-mode
  (wrapping) semantics; `checked` panics that exist only in debug builds are
  not modelled.  Division / remainder by zero panics in both profiles and is
  modelled explicitly (`RResult.panicked`), as are out-of-range slice
  indexing operations.
* The backing OS file is `FileState`: the block-info table region is kept
  structurally (`table : List BlockInfo`, entry `i` standing for the 9 bytes
  at offset `20 + 9*i`; the 9-byte big-endian encoding of
  `(used, block_index, usage)` is a bijection on the stored ranges, so the
  structural view is faithful), plus the byte contents of the file
  (`data : Nat → UInt8`, meaningful below `len`).  `File::read` at or past
  `len` returns 0 bytes; writing past `len` extends the file, with the
  skipped gap reading as zero bytes (sparse file).
* `BlockFile::read`/`write` loop until the requested span is consumed; the
  loops' progress depends on the data, so they are modelled with an explicit
  fuel argument: `none` means the fuel ran out, and a result that is `none`
  for every fuel is a non-terminating call.
* The creation-time block count is the Rust expression
  `(file_size as f64 / block_size as f64).ceil() as usize`; `blockCount`
  models it exactly: round-to-nearest-ties-to-even conversion of the
  integers to binary64, correctly rounded division, exact `ceil`, and the
  saturating float-to-integer cast.
-/

/-- `2 ^ 32`, the modulus of Rust's `u32`. -/
def U32 : Nat := 2 ^ 32

/-- `2 ^ 64`, the modulus of Rust's `u64` (and of `usize` on the 64-bit
targets this program runs on). -/
def U64 : Nat := 2 ^ 64

/-! ## The binary64 model behind `BlockFileHeader::new`'s block count -/

/-- Round the rational `num / den` to the nearest integer, ties to even
(`den > 0`). -/
def rndNE (num den : Nat) : Nat :=
  let q := num / den
  let r := num % den
  if den < 2 * r then q + 1
  else if 2 * r = den ∧ q % 2 = 1 then q + 1
  else q

/-- `⌊log₂ n⌋` (0 for `n = 0`), by fuel-bounded structural recursion so that
it evaluates inside the kernel. -/
def log2Aux : Nat → Nat → Nat
  | 0, _ => 0
  | fuel + 1, n => if 2 ≤ n then log2Aux fuel (n / 2) + 1 else 0

/-- `⌊log₂ n⌋` for `n ≥ 1`. -/
def log2N (n : Nat) : Nat := log2Aux n n

/-- `⌈log₂ m⌉`: the least `k` with `m ≤ 2 ^ k`. -/
def clog2N (m : Nat) : Nat := if m ≤ 1 then 0 else log2N (m - 1) + 1

/-- `⌊log₂ (num / den)⌋` for `num, den ≥ 1`. -/
def floorLog2 (num den : Nat) : Int :=
  if den ≤ num then (log2N (num / den) : Int)
  else -(clog2N ((den + num - 1) / num) : Int)

/-- The binary64 value nearest to `num / den` (round to nearest, ties to
even), as a dyadic pair `(m, e)` standing for `m * 2 ^ e`.  Modelled on the
finite normal range, which covers every value the program can produce. -/
def rnd53 (num den : Nat) : Nat × Int :=
  if num = 0 then (0, 0)
  else
    let e := floorLog2 num den
    let m :=
      if e ≤ 52 then rndNE (num * 2 ^ (52 - e).toNat) den
      else rndNE num (den * 2 ^ (e - 52).toNat)
    (m, e - 52)

/-- `f64::ceil` of a nonnegative dyadic value, as a natural number (exact,
as it is on binary64 values). -/
def dyadicCeil : Nat × Int → Nat
  | (m, e) => if 0 ≤ e then m * 2 ^ e.toNat else (m + 2 ^ (-e).toNat - 1) / 2 ^ (-e).toNat

/-- Correctly rounded binary64 division of two dyadic values (the second
nonzero): the exact rational quotient handed back to `rnd53`. -/
def rnd53div : Nat × Int → Nat × Int → Nat × Int
  | (m1, e1), (m2, e2) =>
    if e2 ≤ e1 then rnd53 (m1 * 2 ^ (e1 - e2).toNat) m2
    else rnd53 m1 (m2 * 2 ^ (e2 - e1).toNat)

/-- `(file_size as f64 / block_size as f64).ceil() as usize` from
`BlockFileHeader::new`.  `x / 0.0` is `+inf` for `x > 0` (saturating to
`usize::MAX`) and NaN for `x = 0` (casting to 0). -/
def blockCount (file_size block_size : Nat) : Nat :=
  if block_size = 0 then (if file_size = 0 then 0 else U64 - 1)
  else if file_size = 0 then 0
  else min (dyadicCeil (rnd53div (rnd53 file_size 1) (rnd53 block_size 1))) (U64 - 1)

/-! ## The block file -/

/-- One 9-byte entry of the block-info table (`struct BlockInfo`):
`block_info_index` is the entry's own position (used when flushing),
`block_index` the assigned physical slot (`u32`), `usage` the advisory
byte counter (`u32`). -/
structure BlockInfo where
  block_info_index : Nat
  used : Bool
  block_index : Nat
  usage : Nat
deriving DecidableEq, Repr

instance : Inhabited BlockInfo := ⟨⟨0, false, 0, 0⟩⟩

/-- `struct BlockFileHeader`: the in-memory copy of the table plus the
sizes and the allocation counter (`next_block_index : u32`). -/
structure BlockFileHeader where
  block_info_list : List BlockInfo
  file_size : Nat
  block_size : Nat
  next_block_index : Nat
deriving DecidableEq, Repr

/-- The backing OS file: the stored block-info table (structural view of the
bytes at offsets `20 + 9*i`), the file length, and the byte contents. -/
structure FileState where
  table : List BlockInfo
  len : Nat
  data : Nat → UInt8

/-- `struct BlockFile`: the in-memory header plus the open file. -/
structure BlockFile where
  header : BlockFileHeader
  file : FileState

/-- Outcome of a Rust call: a panic, an `Err(..)`, or `Ok`. -/
inductive RResult (α : Type) where
  | panicked
  | error
  | ok (val : α)
deriving DecidableEq, Repr

/-- Write a byte list into the file contents starting at `pos`. -/
def storeBytes (data : Nat → UInt8) (pos : Nat) : List UInt8 → (Nat → UInt8)
  | [] => data
  | b :: rest => storeBytes (fun p => if p = pos then b else data p) (pos + 1) rest

/-- Overwrite a byte list `buf` starting at index `pos` with `chunk`
(`List.set` semantics: positions past the end are dropped). -/
def fillAt (buf : List UInt8) (pos : Nat) : List UInt8 → List UInt8
  | [] => buf
  | b :: rest => fillAt (buf.set pos b) (pos + 1) rest

/-- `BlockFileHeader::get_header_size`: `20 + 9 * N` as `u64`. -/
def BlockFileHeader.get_header_size (h : BlockFileHeader) : Nat :=
  (20 + h.block_info_list.length * 9) % U64

/-- `BlockFileHeader::new(file_size, block_size)`: the table is
`block_count` fresh entries, `used = false`, `next_block_index = 0`.  When
the saturated count is absurd — `block_size = 0` gives `usize::MAX` — the
Rust `collect` of the table itself panics with a capacity overflow, so no
header (and no block file) ever exists; the total table here is therefore
only ever exercised with `block_size > 0` below. -/
def BlockFileHeader.new (file_size block_size : Nat) : BlockFileHeader :=
  ⟨(List.range (blockCount file_size block_size)).map (fun index => ⟨index, false, 0, 0⟩),
    file_size, block_size, 0⟩

/-- `BlockFile::create`: a fresh file holding exactly the header (signature,
sizes, and the table), so its length is the header size; no data bytes yet
(they read as zero once the file is extended past them). -/
def BlockFile.create (file_size block_size : Nat) : BlockFile :=
  let header := BlockFileHeader.new file_size block_size
  ⟨header, ⟨header.block_info_list, header.get_header_size, fun _ => 0⟩⟩

/-- One step of a fuel-run loop: either the call finishes with a result and
a final state, or the loop continues from a new state. -/
inductive Step (σ : Type) (α : Type) where
  | done (r : RResult α) (s : σ)
  | next (s : σ)

/-- One iteration of the `while` loop of `BlockFile::write` (state: the
block file and `total_wrote_size`).  In source order: the wrapped current
offset, `block_cursor = offset % block_size` (panics when `block_size = 0`),
`get_mut_or_allocate_block` (error when the position maps past the table;
allocation assigns `next_block_index` and bumps it, wrapping at `u32`),
`try_move_cursor` (the entry is used here, so it only seeks), the chunk
write, the `usage` bump and the entry flush. -/
def BlockFile.writeStep (buf : List UInt8) (offset : Nat) :
    BlockFile × Nat → Step (BlockFile × Nat) Nat := fun s =>
  let bf := s.1
  let total := s.2
  if total < buf.length then
    let oc := (offset + total) % U64
    let bs := bf.header.block_size
    if bs = 0 then .done .panicked s
    else
      let cursor := oc % bs
      let idx := oc / bs
      if idx < bf.header.block_info_list.length then
        let info0 := bf.header.block_info_list.getD idx default
        let info1 :=
          if info0.used then info0
          else ⟨info0.block_info_index, true, bf.header.next_block_index, 0⟩
        let next1 :=
          if info0.used then bf.header.next_block_index
          else (bf.header.next_block_index + 1) % U32
        let pos := (bf.header.get_header_size + info1.block_index * bs + cursor % bs) % U64
        let endIndex := min buf.length (total + bs - cursor)
        let chunk := (buf.drop total).take (endIndex - total)
        let wrote := chunk.length
        let info2 : BlockInfo :=
          ⟨info1.block_info_index, info1.used, info1.block_index, (info1.usage + wrote) % U32⟩
        let bf' : BlockFile :=
          ⟨⟨bf.header.block_info_list.set idx info2, bf.header.file_size,
              bf.header.block_size, next1⟩,
            ⟨bf.file.table.set info2.block_info_index info2,
              max bf.file.len (pos + wrote), storeBytes bf.file.data pos chunk⟩⟩
        .next (bf', total + wrote)
      else .done .error s
  else .done (.ok total) s

/-- The `while` loop of `BlockFile::write`, with fuel (`none` = the fuel ran
out before the loop finished). -/
def BlockFile.writeLoop (buf : List UInt8) (offset : Nat) :
    Nat → BlockFile × Nat → Option (RResult Nat × BlockFile)
  | 0, _ => none
  | fuel + 1, s =>
    match BlockFile.writeStep buf offset s with
    | .done r s' => some (r, s'.1)
    | .next s' => BlockFile.writeLoop buf offset fuel s'

/-- `BlockFile::write(buf, offset)`. -/
def BlockFile.write (bf : BlockFile) (buf : List UInt8) (offset fuel : Nat) :
    Option (RResult Nat × BlockFile) :=
  BlockFile.writeLoop buf offset fuel (bf, 0)

/-- One iteration of the `while` loop of `BlockFile::read` (state: the block
file, the buffer, and `total_read_size`).  In source order: the wrapped
current offset, `block_cursor` (panics when `block_size = 0`),
`get_mut_block_info` (error past the table), the reload of the entry from
the stored table (error when the stored table ends before it), the
`try_move_cursor` hole check (error when the entry is not used), then
`file.read` into `buf[total..end_index]`, which returns
`min(requested, len - pos)` bytes — 0 at or past end of file. -/
def BlockFile.readStep (offset endBound : Nat) :
    BlockFile × List UInt8 × Nat → Step (BlockFile × List UInt8 × Nat) (Nat × List UInt8) :=
  fun s =>
  let bf := s.1
  let buf := s.2.1
  let total := s.2.2
  if total < endBound then
    let oc := (offset + total) % U64
    let bs := bf.header.block_size
    if bs = 0 then .done .panicked s
    else
      let cursor := oc % bs
      let idx := oc / bs
      if idx < bf.header.block_info_list.length then
        if idx < bf.file.table.length then
          let fe0 := bf.file.table.getD idx default
          let fe : BlockInfo := ⟨idx, fe0.used, fe0.block_index, fe0.usage⟩
          let bf' : BlockFile :=
            ⟨⟨bf.header.block_info_list.set idx fe, bf.header.file_size,
                bf.header.block_size, bf.header.next_block_index⟩, bf.file⟩
          if fe.used then
            let pos := (bf.header.get_header_size + fe.block_index * bs + cursor % bs) % U64
            let endIndex := min buf.length (total + bs - cursor)
            let req := endIndex - total
            let got := min req (bf.file.len - pos)
            let chunk := (List.range got).map (fun k => bf.file.data (pos + k))
            .next (bf', fillAt buf total chunk, total + got)
          else .done .error (bf', buf, total)
        else .done .error s
      else .done .error s
  else .done (.ok (total, buf)) s

/-- The `while` loop of `BlockFile::read`, with fuel. -/
def BlockFile.readLoop (offset endBound : Nat) :
    Nat → BlockFile × List UInt8 × Nat →
      Option (RResult (Nat × List UInt8) × BlockFile)
  | 0, _ => none
  | fuel + 1, s =>
    match BlockFile.readStep offset endBound s with
    | .done r s' => some (r, s'.1)
    | .next s' => BlockFile.readLoop offset endBound fuel s'

/-- `BlockFile::read(buf, offset)`: error when `offset` is past the logical
size, otherwise loop up to `min(|buf|, file_size - offset)`.  Returns the
byte count together with the buffer contents after the call. -/
def BlockFile.read (bf : BlockFile) (buf : List UInt8) (offset fuel : Nat) :
    Option (RResult (Nat × List UInt8) × BlockFile) :=
  if bf.header.file_size < offset then some (.error, bf)
  else BlockFile.readLoop offset (min buf.length (bf.header.file_size - offset)) fuel (bf, buf, 0)

/-- `BlockFile::find_block_info_range(offset, size)`: the first and last
block-info indices of the span (`end = offset + size - 1` for `size ≥ 1`,
`end = offset` for `size = 0`); the caller's divisions panic when
`block_size = 0`. -/
def BlockFile.find_block_info_range (bf : BlockFile) (offset size : Nat) : Nat × Nat :=
  let e := if size = 0 then offset else (offset + size - 1) % U64
  (offset / bf.header.block_size, e / bf.header.block_size)

/-- `BlockFile::calc_block_range_from(offset, size)`:
`(begin * bs, end * bs + bs)` in wrapping `u64` arithmetic. -/
def BlockFile.calc_block_range_from (bf : BlockFile) (offset size : Nat) :
    RResult (Nat × Nat) :=
  if bf.header.block_size = 0 then .panicked
  else
    let p := bf.find_block_info_range offset size
    .ok ((p.1 * bf.header.block_size) % U64,
      (p.2 * bf.header.block_size + bf.header.block_size) % U64)

/-- The `for` loop of `BlockFile::is_data_ready` over the sliced entries
`i, i+1, …` (`count` of them): reload each from the stored table, stop with
`false` at the first not-used entry. -/
def BlockFile.readyLoop (bf : BlockFile) (i : Nat) : Nat → RResult Bool × BlockFile
  | 0 => (.ok true, bf)
  | count + 1 =>
    if i < bf.file.table.length then
      let fe0 := bf.file.table.getD i default
      let fe : BlockInfo := ⟨i, fe0.used, fe0.block_index, fe0.usage⟩
      let bf' : BlockFile :=
        ⟨⟨bf.header.block_info_list.set i fe, bf.header.file_size,
            bf.header.block_size, bf.header.next_block_index⟩, bf.file⟩
      if fe.used then BlockFile.readyLoop bf' (i + 1) count
      else (.ok false, bf')
    else (.error, bf)

/-- `BlockFile::is_data_ready(begin, size)`: clip `size` against the logical
size (wrapping subtraction when `begin` is past it), derive the block-info
index range, slice the in-memory list (a panic when the slice bounds are out
of range), and scan the entries, each reloaded from the stored table. -/
def BlockFile.is_data_ready (bf : BlockFile) (bgn sz : Nat) : RResult Bool × BlockFile :=
  let fs := bf.header.file_size
  let sz1 := if fs < (bgn + sz) % U64 then (fs + U64 - bgn) % U64 else sz
  if bf.header.block_size = 0 then (.panicked, bf)
  else
    let p := bf.find_block_info_range bgn sz1
    let e1 := (p.2 + 1) % U64
    if p.1 ≤ e1 ∧ e1 ≤ bf.header.block_info_list.length then
      BlockFile.readyLoop bf p.1 (e1 - p.1)
    else (.panicked, bf)

/-! ## The download coordinator's locking discipline

`WebDAVFSFileDownloader::download` (existing-handle path whose readiness
probe came back `false`) performs, in order: lock the registry
(`path_to_cache_map.lock()`), probe `is_data_ready` under that lock, then
`let _ = handle.mutex.lock().await` — the guard is bound to the wildcard
pattern, so it is dropped at the end of that statement — then
`drop(path_to_cache_map)`, then `calc_block_range_from` and the HTTP range
GET streaming into the block file.  The per-handle mutex is therefore
acquired and released *before* the GET begins. -/

/-- The atomic events of one `download` call. -/
inductive DLStep where
  | acquireRegistry
  | releaseRegistry
  | acquireHandle
  | releaseHandle
  | checkReady
  | httpGetStart
  | httpGetEnd
deriving DecidableEq, BEq, Repr

/-- The event sequence of `WebDAVFSFileDownloader::download` on the
existing-handle, data-not-ready path, with Rust drop semantics:
`let _ = handle.mutex.lock().await` releases the guard immediately. -/
def downloadSteps : List DLStep :=
  [.acquireRegistry, .checkReady, .acquireHandle, .releaseHandle,
    .releaseRegistry, .httpGetStart, .httpGetEnd]

/-- Mutex discipline of a schedule of two tasks (`Bool` names the task):
an acquire needs the mutex free, a release needs the releasing task to hold
it, the readiness probe runs under the registry lock. -/
def mutexOK : Option Bool → Option Bool → List (Bool × DLStep) → Bool
  | _, _, [] => true
  | reg, hnd, (t, s) :: rest =>
    match s with
    | .acquireRegistry =>
      match reg with
      | none => mutexOK (some t) hnd rest
      | some _ => false
    | .releaseRegistry =>
      match reg with
      | some u => u == t && mutexOK none hnd rest
      | none => false
    | .checkReady =>
      match reg with
      | some u => u == t && mutexOK reg hnd rest
      | none => false
    | .acquireHandle =>
      match hnd with
      | none => mutexOK reg (some t) rest
      | some _ => false
    | .releaseHandle =>
      match hnd with
      | some u => u == t && mutexOK reg none rest
      | none => false
    | .httpGetStart => mutexOK reg hnd rest
    | .httpGetEnd => mutexOK reg hnd rest

/-- The events of one task inside a schedule. -/
def taskEvents (sched : List (Bool × DLStep)) (t : Bool) : List DLStep :=
  (sched.filter (fun p => p.1 == t)).map (fun p => p.2)

/-- Does a second GET start while another task's GET is still in flight? -/
def overlappingGets : List Bool → List (Bool × DLStep) → Bool
  | _, [] => false
  | fl, (t, .httpGetStart) :: rest => !fl.isEmpty || overlappingGets (t :: fl) rest
  | fl, (t, .httpGetEnd) :: rest => overlappingGets (fl.erase t) rest
  | fl, _ :: rest => overlappingGets fl rest

/-- A legal interleaving of two concurrent `download` calls for the same
path in which both HTTP GETs are in flight at once. -/
def racySchedule : List (Bool × DLStep) :=
  [(true, .acquireRegistry), (true, .checkReady), (true, .acquireHandle),
    (true, .releaseHandle), (true, .releaseRegistry),
    (false, .acquireRegistry), (false, .checkReady), (false, .acquireHandle),
    (false, .releaseHandle), (false, .releaseRegistry),
    (true, .httpGetStart), (false, .httpGetStart),
    (true, .httpGetEnd), (false, .httpGetEnd)]

/-! ## `WebDAVClient::download`'s Content-Range handling

```text
let file_size: u64 = response.headers().get("Content-Range").map_or(0, |v| {
    v.to_str().unwrap().split("/").last().unwrap().parse().unwrap()
});
if file_size == 0 { return Ok(()); }
```
-/

/-- The numeric value of a decimal digit. -/
def digitVal (c : Char) : Option Nat :=
  if '0' ≤ c ∧ c ≤ '9' then some (c.toNat - '0'.toNat) else none

/-- Accumulate decimal digits; `none` at the first non-digit. -/
def parseDigitsAux (acc : Nat) : List Char → Option Nat
  | [] => some acc
  | c :: rest =>
    match digitVal c with
    | none => none
    | some d => parseDigitsAux (acc * 10 + d) rest

/-- Rust's `str::parse::<u64>`: an optional leading `+`, then one or more
decimal digits, value below `2 ^ 64` (overflow is an error). -/
def parseU64 (s : List Char) : Option Nat :=
  let t := match s with
    | '+' :: rest => rest
    | _ => s
  match t with
  | [] => none
  | _ =>
    match parseDigitsAux 0 t with
    | none => none
    | some v => if v < U64 then some v else none

/-- Rust's `str::split("/")` on a character list (always nonempty). -/
def splitSlash : List Char → List (List Char)
  | [] => [[]]
  | c :: rest =>
    let r := splitSlash rest
    if c = '/' then [] :: r
    else (c :: r.headD []) :: r.tail

/-- `split("/").last().unwrap()`. -/
def lastSegment (s : List Char) : List Char := (splitSlash s).getLastD []

/-- Where `WebDAVClient::download` goes after reading `Content-Range`. -/
inductive DownloadPath where
  | panicked
  | emptyReturn
  | streamWrites
deriving DecidableEq, Repr

/-- The path taken for a given `Content-Range` header value: absent header →
`file_size = 0` → the early `Ok(())` return with no writes; present header →
`parse().unwrap()` of the last `/`-segment — a panic when it does not parse,
the early return when it parses as 0, the streaming loop otherwise. -/
def contentRangePath (header : Option (List Char)) : DownloadPath :=
  match header with
  | none => .emptyReturn
  | some v =>
    match parseU64 (lastSegment v) with
    | none => .panicked
    | some 0 => .emptyReturn
    | some _ => .streamWrites

/-! ## Concrete states used by the counterexamples -/

/-- The state a failed mid-stream download leaves behind: a fresh 2-block
file (`logical_size = 32`, `block_size = 16`) whose block 0 got only 5 of
its bytes before the stream died: `used = true`, `usage = 5`, and the
physical file ends 5 bytes into slot 0. -/
def holeFile : BlockFile :=
  (((BlockFile.create 32 16).write [1, 1, 1, 1, 1] 0 7).map (fun r => r.2)).getD
    (BlockFile.create 32 16)

/-- `holeFile` after block 1 was later fetched in full, extending the
physical file past slot 0. -/
def holeFileExtended : BlockFile :=
  ((holeFile.write (List.replicate 16 2) 16 20).map (fun r => r.2)).getD holeFile

/-- A read call that never returns: for every fuel the loop is still
running. -/
def ReadDiverges (bf : BlockFile) (buf : List UInt8) (offset : Nat) : Prop :=
  ∀ fuel, bf.read buf offset fuel = none

/-- The loop state `BlockFile::read(buf32, 0)` on `holeFile` gets stuck in:
5 bytes delivered, the cursor at end of file, every further `file.read`
returning 0 bytes. -/
def holeStuck32 : BlockFile × List UInt8 × Nat :=
  (holeFile, [1, 1, 1, 1, 1] ++ List.replicate 27 0, 5)

/-- Same stuck state for a 16-byte buffer. -/
def holeStuck16 : BlockFile × List UInt8 × Nat :=
  (holeFile, [1, 1, 1, 1, 1] ++ List.replicate 11 0, 5)

theorem holeStuck32_fixed : BlockFile.readStep 0 32 holeStuck32 = .next holeStuck32 := rfl

theorem holeStuck16_fixed : BlockFile.readStep 0 16 holeStuck16 = .next holeStuck16 := rfl

theorem holeStuck32_loops : ∀ fuel, BlockFile.readLoop 0 32 fuel holeStuck32 = none := by
  intro fuel
  induction fuel with
  | zero => rfl
  | succ n ih => rw [BlockFile.readLoop, holeStuck32_fixed]; exact ih

theorem holeStuck16_loops : ∀ fuel, BlockFile.readLoop 0 16 fuel holeStuck16 = none := by
  intro fuel
  induction fuel with
  | zero => rfl
  | succ n ih => rw [BlockFile.readLoop, holeStuck16_fixed]; exact ih

/-- C2.  `let _ = handle.mutex.lock().await` drops the guard at once, so in
`downloadSteps` every handle-lock acquire is already released when the GET
starts, and the concrete schedule `racySchedule` — two full `download`
calls for the same path — is a legal interleaving (both mutexes respected)
in which the two HTTP GETs are in flight simultaneously. -/
theorem C2_dropped_guard_concurrent_gets :
    taskEvents racySchedule true = downloadSteps ∧
    taskEvents racySchedule false = downloadSteps ∧
    mutexOK none none racySchedule = true ∧
    overlappingGets [] racySchedule = true ∧
    (downloadSteps.takeWhile (fun s => s ≠ DLStep.httpGetStart)).count DLStep.acquireHandle =
      (downloadSteps.takeWhile (fun s => s ≠ DLStep.httpGetStart)).count
        DLStep.releaseHandle := by decide

/-- C5.  At `logical_size = 2^53 + 1`, `block_size = 1` the f64 computation
in `BlockFileHeader::new` rounds `2^53 + 1` to `2^53` (ties to even), so the
created table has `2^53` entries while the exact ceiling
`⌈(2^53 + 1) / 1⌉ = (2^53 + 1 + 1 - 1) / 1` is `2^53 + 1`. -/
theorem C5_float_blockcount_undercounts :
    (BlockFileHeader.new (2 ^ 53 + 1) 1).block_info_list.length = 2 ^ 53 ∧
    2 ^ 53 ≠ (2 ^ 53 + 1 + 1 - 1) / 1 := by
  refine ⟨?_, by decide⟩
  simp only [BlockFileHeader.new, List.length_map, List.length_range]
  decide

/-- C6, counterexample.  On a fresh `create(32, 16)` file,
`is_data_ready(0, 0)` returns `false`, although no logical block intersects
the empty clipped range `[0, 0)` (so the claimed iff demands `true`): the
code always inspects the block containing `begin`. -/
theorem C6_ready_empty_range_false :
    ((BlockFile.create 32 16).is_data_ready 0 0).1 = RResult.ok false ∧
    (Finset.range 2).filter (fun i => 16 * i < min (0 + 0) 32) = ∅ := by decide

/-- C7, counterexample.  With `block_size = 16`, `offset = 2^64 - 1`,
`length = 2`: `offset + length - 1` wraps in `u64`, so the call returns
`(2^64 - 16, 16)` — the end is not `(⌊(offset+length-1)/bs⌋ + 1) · bs` and
the returned range does not cover `[offset, offset + length)`. -/
theorem C7_calc_block_range_overflow :
    (BlockFile.create 32 16).calc_block_range_from (U64 - 1) 2 =
      RResult.ok (U64 - 16, 16) ∧
    ¬ (U64 - 1 + 2 ≤ 16) ∧ 16 ≠ ((U64 - 1 + 2 - 1) / 16 + 1) * 16 := by decide

/-- C9, counterexample.  `write(&[], offset)` never enters the loop and
returns `Ok(0)` — not an error — even at `offset = N·block_size`
(`N·block_size = 32` here). -/
theorem C9_empty_write_beyond_table_ok :
    ((BlockFile.create 32 16).write [] 32 1).map (fun r => r.1) = some (RResult.ok 0) ∧
    (BlockFile.create 32 16).header.block_info_list.length * 16 ≤ 32 := by decide

/-- C3, counterexample.  On `holeFile` the clipped range of
`read(buf32, 0)` is `[0, 32)`, which touches the not-used block 1 — but the
read neither fails nor returns: block 0's slot ends at the file's end, every
`file.read` there returns 0 bytes, and the loop runs forever. -/
theorem C3_read_diverges_on_hole :
    ReadDiverges holeFile (List.replicate 32 0) 0 ∧
    (holeFile.file.table.getD 1 default).used = false ∧
    holeFile.header.file_size = 32 := by
  refine ⟨?_, by decide, by decide⟩
  intro fuel
  cases fuel with
  | zero => rfl
  | succ n => exact holeStuck32_loops n

/-- C4, counterexample.  Block 0 of `holeFile` is used with only 5 of the 16
requested bytes landed and the physical file ending right there:
`read(buf16, 0)` never terminates (so it does not "return whatever bytes
were actually written"). -/
theorem C4_read_diverges_at_eof :
    ReadDiverges holeFile (List.replicate 16 0) 0 ∧
    (holeFile.file.table.getD 0 default).used = true ∧
    (holeFile.file.table.getD 0 default).usage = 5 ∧
    holeFile.file.len = 43 := by
  refine ⟨?_, by decide, by decide, by decide⟩
  intro fuel
  cases fuel with
  | zero => rfl
  | succ n => exact holeStuck16_loops n

/-- C10.  `WebDAVClient::download`'s Content-Range handling: the call panics
exactly when a header is present whose last `/`-segment does not parse as a
`u64`; the no-writes early return is taken exactly when the header is absent
or that segment parses as 0 — and `"bytes 0-15/*"` is a panicking value. -/
theorem C10_content_range_paths :
    (∀ h : Option (List Char),
      (contentRangePath h = DownloadPath.panicked ↔
        ∃ v, h = some v ∧ parseU64 (lastSegment v) = none) ∧
      (contentRangePath h = DownloadPath.emptyReturn ↔
        h = none ∨ ∃ v, h = some v ∧ parseU64 (lastSegment v) = some 0)) ∧
    contentRangePath (some ['b', 'y', 't', 'e', 's', ' ', '0', '-', '1', '5', '/', '*']) =
      DownloadPath.panicked := by
  refine ⟨?_, by decide⟩
  intro h
  cases h with
  | none => simp [contentRangePath]
  | some v =>
    cases hp : parseU64 (lastSegment v) with
    | none => simp [contentRangePath, hp]
    | some n => cases n <;> simp [contentRangePath, hp]

/-- C7, amended.  For `block_size > 0`, `length ≥ 1`, and inputs where the
`u64` arithmetic cannot wrap, `calc_block_range_from` returns exactly
`(⌊offset/bs⌋·bs, (⌊(offset+length-1)/bs⌋+1)·bs)`: both ends multiples of
`bs`, the range covering `[offset, offset+length)`; and for length 0 it
returns the boundaries of the block containing `offset`. -/
theorem C7_calc_block_range_formulas (bf : BlockFile) (off sz : Nat)
    (hbs : 0 < bf.header.block_size) (hsz : 1 ≤ sz)
    (hov : off + sz ≤ U64)
    (hend : ((off + sz - 1) / bf.header.block_size + 1) * bf.header.block_size < U64) :
    bf.calc_block_range_from off sz =
      RResult.ok (off / bf.header.block_size * bf.header.block_size,
        ((off + sz - 1) / bf.header.block_size + 1) * bf.header.block_size) ∧
    bf.header.block_size ∣ off / bf.header.block_size * bf.header.block_size ∧
    bf.header.block_size ∣
      ((off + sz - 1) / bf.header.block_size + 1) * bf.header.block_size ∧
    off / bf.header.block_size * bf.header.block_size ≤ off ∧
    off + sz ≤ ((off + sz - 1) / bf.header.block_size + 1) * bf.header.block_size ∧
    bf.calc_block_range_from off 0 =
      RResult.ok (off / bf.header.block_size * bf.header.block_size,
        off / bf.header.block_size * bf.header.block_size + bf.header.block_size) := by
  set bs := bf.header.block_size with hbsdef
  have hbne : ¬ bs = 0 := Nat.pos_iff_ne_zero.mp hbs
  have hoffU : off < U64 := by omega
  have hlow : off / bs * bs ≤ off := Nat.div_mul_le_self off bs
  have hcover : off + sz - 1 < ((off + sz - 1) / bs + 1) * bs := by
    have := Nat.lt_div_mul_add (a := off + sz - 1) hbs
    have heq : ((off + sz - 1) / bs + 1) * bs = (off + sz - 1) / bs * bs + bs := by ring
    omega
  have hlowend : (off / bs + 1) * bs ≤ ((off + sz - 1) / bs + 1) * bs := by
    have hmono : off / bs ≤ (off + sz - 1) / bs := Nat.div_le_div_right (by omega)
    exact Nat.mul_le_mul_right bs (by omega)
  refine ⟨?_, dvd_mul_left bs _, dvd_mul_left bs _, hlow, by omega, ?_⟩
  · unfold BlockFile.calc_block_range_from BlockFile.find_block_info_range
    rw [if_neg hbne]
    have h1 : ¬ sz = 0 := by omega
    rw [if_neg h1]
    dsimp only
    rw [← hbsdef]
    have h2 : (off + sz - 1) % U64 = off + sz - 1 := Nat.mod_eq_of_lt (by omega)
    rw [h2]
    have h3 : off / bs * bs % U64 = off / bs * bs :=
      Nat.mod_eq_of_lt (by
        have : off / bs * bs ≤ off := hlow
        omega)
    have h4 : ((off + sz - 1) / bs * bs + bs) % U64 =
        (off + sz - 1) / bs * bs + bs := by
      have : ((off + sz - 1) / bs + 1) * bs = (off + sz - 1) / bs * bs + bs := by ring
      exact Nat.mod_eq_of_lt (by omega)
    rw [h3, h4]
    have : ((off + sz - 1) / bs + 1) * bs = (off + sz - 1) / bs * bs + bs := by ring
    rw [this]
  · unfold BlockFile.calc_block_range_from BlockFile.find_block_info_range
    rw [if_neg hbne]
    rw [if_pos rfl]
    dsimp only
    rw [← hbsdef]
    have h3 : off / bs * bs % U64 = off / bs * bs := Nat.mod_eq_of_lt (by omega)
    have h4 : (off / bs * bs + bs) % U64 = off / bs * bs + bs := by
      refine Nat.mod_eq_of_lt ?_
      have : (off / bs + 1) * bs = off / bs * bs + bs := by ring
      omega
    rw [h3, h4]

/-- C7 witness: `calc_block_range_from(10, 20)` on a `create(50, 16)` file is
`(0, 32)` (spec scenario 3). -/
theorem C7_calc_block_range_formulas_witness :
    (BlockFile.create 50 16).calc_block_range_from 10 20 = RResult.ok (0, 32) :=
  (C7_calc_block_range_formulas (BlockFile.create 50 16) 10 20 (by decide) (by decide)
    (by decide) (by decide)).1

/-- Shape of one write iteration: every exit leaves the state untouched, and
a continuing step only rewrites existing entries (table length and the
header's sizes are unchanged). -/
theorem writeStep_shape (buf : List UInt8) (off : Nat) (s : BlockFile × Nat) :
    (∃ r, BlockFile.writeStep buf off s = .done r s) ∨
    ∃ s', BlockFile.writeStep buf off s = .next s' ∧
      s'.1.header.block_info_list.length = s.1.header.block_info_list.length ∧
      s'.1.header.file_size = s.1.header.file_size ∧
      s'.1.header.block_size = s.1.header.block_size ∧
      s'.1.file.table.length = s.1.file.table.length := by
  unfold BlockFile.writeStep
  dsimp only
  split
  · split
    · exact .inl ⟨_, rfl⟩
    · split
      · exact .inr ⟨_, rfl, by simp, rfl, rfl, by simp⟩
      · exact .inl ⟨_, rfl⟩
  · exact .inl ⟨_, rfl⟩

/-- Through any number of write iterations the table length and the header
sizes never change. -/
theorem writeLoop_frame (buf : List UInt8) (off : Nat) :
    ∀ fuel s r bf2, BlockFile.writeLoop buf off fuel s = some (r, bf2) →
      bf2.header.block_info_list.length = s.1.header.block_info_list.length ∧
      bf2.header.file_size = s.1.header.file_size ∧
      bf2.header.block_size = s.1.header.block_size ∧
      bf2.file.table.length = s.1.file.table.length := by
  intro fuel
  induction fuel with
  | zero =>
    intro s r bf2 h
    exact absurd h (by simp [BlockFile.writeLoop])
  | succ n ih =>
    intro s r bf2 h
    rw [BlockFile.writeLoop] at h
    rcases writeStep_shape buf off s with ⟨r0, hs⟩ | ⟨s', hs, h1, h2, h3, h4⟩
    · rw [hs] at h
      obtain ⟨hr, hbf⟩ : r0 = r ∧ s.1 = bf2 := by
        constructor <;> { injection h with h5; injection h5 }
      exact hbf ▸ ⟨rfl, rfl, rfl, rfl⟩
    · rw [hs] at h
      obtain ⟨e1, e2, e3, e4⟩ := ih s' r bf2 h
      exact ⟨e1.trans h1, e2.trans h2, e3.trans h3, e4.trans h4⟩

/-- C9, amended.  A *nonempty* write whose offset is at or beyond
`N·block_size` fails with an error at the very first block lookup, leaving
the block file untouched; and no write ever changes the table's length.
(The empty-buffer write, by contrast, returns `Ok(0)` — the
counterexample.) -/
theorem C9_write_beyond_table_errors (bf : BlockFile) (buf : List UInt8)
    (off fuel : Nat)
    (hbs : 0 < bf.header.block_size) (hbuf : buf ≠ []) (hoff : off < U64)
    (hbeyond : bf.header.block_info_list.length * bf.header.block_size ≤ off)
    (hfuel : 1 ≤ fuel) :
    bf.write buf off fuel = some (RResult.error, bf) ∧
    ∀ buf2 off2 fuel2 r bf2, bf.write buf2 off2 fuel2 = some (r, bf2) →
      bf2.header.block_info_list.length = bf.header.block_info_list.length := by
  constructor
  · obtain ⟨k, rfl⟩ : ∃ k, fuel = k + 1 := ⟨fuel - 1, by omega⟩
    have hstep : BlockFile.writeStep buf off (bf, 0) = .done .error (bf, 0) := by
      unfold BlockFile.writeStep
      dsimp only
      rw [if_pos (show (0 : Nat) < buf.length from List.length_pos.mpr hbuf)]
      rw [if_neg (Nat.pos_iff_ne_zero.mp hbs)]
      rw [if_neg ?_]
      have h0 : (off + 0) % U64 = off := by
        rw [Nat.add_zero]; exact Nat.mod_eq_of_lt hoff
      rw [h0]
      intro hcon
      have hle : bf.header.block_info_list.length ≤ off / bf.header.block_size :=
        (Nat.le_div_iff_mul_le hbs).mpr hbeyond
      omega
    unfold BlockFile.write
    rw [BlockFile.writeLoop, hstep]
  · intro buf2 off2 fuel2 r bf2 h
    exact (writeLoop_frame buf2 off2 fuel2 (bf, 0) r bf2 h).1

/-- C9 witness: on a `create(32, 16)` file (`N·bs = 32`), writing one byte
at offset 32 errors and leaves the file as created. -/
theorem C9_write_beyond_table_errors_witness :
    (BlockFile.create 32 16).write [7] 32 1 = some (RResult.error, BlockFile.create 32 16) :=
  (C9_write_beyond_table_errors (BlockFile.create 32 16) [7] 32 1 (by decide) (by decide)
    (by decide) (by decide) (by decide)).1

/-- `i ≤ (y-1)/bs ↔ i·bs < y` for `bs > 0`, `y ≥ 1`: a block index is at
most the last touched block's index exactly when the block starts before the
end of the span. -/
theorem le_lastBlock_iff (bs i y : Nat) (hbs : 0 < bs) (hy : 1 ≤ y) :
    i ≤ (y - 1) / bs ↔ i * bs < y := by
  constructor
  · intro h
    have h1 : i * bs ≤ (y - 1) / bs * bs := Nat.mul_le_mul_right bs h
    have h2 : (y - 1) / bs * bs ≤ y - 1 := Nat.div_mul_le_self _ _
    omega
  · intro h
    have h1 : i * bs ≤ y - 1 := by omega
    have h2 : i * bs / bs ≤ (y - 1) / bs := Nat.div_le_div_right h1
    rwa [Nat.mul_div_cancel i hbs] at h2

/-- The readiness scan over entries `i, …, i+count-1` returns `Ok` of the
conjunction of the stored used flags, provided those entries exist in the
stored table. -/
theorem readyLoop_spec : ∀ (count : Nat) (bf : BlockFile) (i : Nat),
    i + count ≤ bf.file.table.length →
    (bf.readyLoop i count).1 = RResult.ok ((List.range count).all
      (fun j => (bf.file.table.getD (i + j) default).used)) := by
  intro count
  induction count with
  | zero => intro bf i _; rfl
  | succ n ih =>
    intro bf i hle
    rw [BlockFile.readyLoop]
    rw [if_pos (show i < bf.file.table.length by omega)]
    dsimp only
    rw [List.range_succ_eq_map]
    by_cases hu : (bf.file.table.getD i default).used = true
    · rw [if_pos hu, ih _ (i + 1) (by dsimp only; omega)]
      simp only [List.all_cons, List.all_map, Nat.add_zero, hu, Bool.true_and]
      refine congrArg RResult.ok (congrArg (List.all (List.range n)) ?_)
      funext j
      simp only [Function.comp_apply]
      rw [show i + Nat.succ j = i + 1 + j by omega]
    · rw [if_neg hu]
      simp only [List.all_cons, Nat.add_zero]
      rw [Bool.not_eq_true] at hu
      rw [hu]
      rfl

/-- What `is_data_ready` computes for a request with `length ≥ 1` starting
inside the logical size, when the table covers the clipped range: the scan
of the used flags of blocks `⌊begin/bs⌋ … ⌊(clip-1)/bs⌋`. -/
theorem is_data_ready_spec (bf : BlockFile) (bgn sz : Nat)
    (hbs : 0 < bf.header.block_size) (hfsU : bf.header.file_size < U64)
    (hb : bgn < bf.header.file_size) (hsz : 1 ≤ sz) (hnw : bgn + sz < U64)
    (hcov : (min (bgn + sz) bf.header.file_size - 1) / bf.header.block_size <
      bf.header.block_info_list.length)
    (hlen : bf.header.block_info_list.length ≤ bf.file.table.length) :
    (bf.is_data_ready bgn sz).1 = RResult.ok ((List.range
      ((min (bgn + sz) bf.header.file_size - 1) / bf.header.block_size + 1 -
        bgn / bf.header.block_size)).all
      (fun j => (bf.file.table.getD (bgn / bf.header.block_size + j) default).used)) := by
  have hbne : ¬ bf.header.block_size = 0 := Nat.pos_iff_ne_zero.mp hbs
  have hy1 : bgn + 1 ≤ min (bgn + sz) bf.header.file_size := by omega
  have hbe : bgn / bf.header.block_size ≤
      (min (bgn + sz) bf.header.file_size - 1) / bf.header.block_size :=
    Nat.div_le_div_right (by omega)
  have heU : (min (bgn + sz) bf.header.file_size - 1) / bf.header.block_size + 1 < U64 := by
    have h1 : (min (bgn + sz) bf.header.file_size - 1) / bf.header.block_size ≤
        min (bgn + sz) bf.header.file_size - 1 := Nat.div_le_self _ _
    omega
  simp only [BlockFile.is_data_ready, BlockFile.find_block_info_range]
  rw [if_neg hbne]
  rw [Nat.mod_eq_of_lt hnw]
  rw [show (if bf.header.file_size < bgn + sz then (bf.header.file_size + U64 - bgn) % U64
      else sz) = min (bgn + sz) bf.header.file_size - bgn by
    split
    · rw [show bf.header.file_size + U64 - bgn = U64 + (bf.header.file_size - bgn) by omega,
        Nat.add_mod_left, Nat.mod_eq_of_lt (by omega)]
      omega
    · omega]
  rw [if_neg (show ¬ (min (bgn + sz) bf.header.file_size - bgn = 0) by omega)]
  rw [show bgn + (min (bgn + sz) bf.header.file_size - bgn) - 1 =
    min (bgn + sz) bf.header.file_size - 1 by omega]
  rw [Nat.mod_eq_of_lt (show min (bgn + sz) bf.header.file_size - 1 < U64 by omega)]
  rw [Nat.mod_eq_of_lt heU]
  rw [if_pos (by constructor <;> omega)]
  exact readyLoop_spec _ bf _ (by omega)

/-- C6, amended.  For a request with `length ≥ 1` starting inside the
logical size, with `begin + length` and the logical size below `2^64` (so
the `u64` clip guard cannot wrap) and the table covering the clipped range,
`is_data_ready` completes without panicking and returns `true` exactly when
every logical block intersecting `[begin, begin+length)` clipped to the
logical size is used.  (A length-0 request instead probes the single block
holding `begin` — the counterexample; `begin` at or past the logical size,
or a length like `2^64 - 1` that wraps `begin + length`, panics on the
table slice.) -/
theorem C6_ready_iff_blocks_used (bf : BlockFile) (bgn sz : Nat)
    (hsync : bf.file.table = bf.header.block_info_list)
    (hbs : 0 < bf.header.block_size) (hsz : 1 ≤ sz)
    (hb : bgn < bf.header.file_size) (hfsU : bf.header.file_size < U64)
    (hnw : bgn + sz < U64)
    (hcov : (min (bgn + sz) bf.header.file_size - 1) / bf.header.block_size <
      bf.header.block_info_list.length) :
    ((bf.is_data_ready bgn sz).1 = RResult.ok true ↔
      ∀ i, bgn / bf.header.block_size ≤ i →
        i * bf.header.block_size < min (bgn + sz) bf.header.file_size →
        ((bf.file.table.getD i default).used = true)) ∧
    (bf.is_data_ready bgn sz).1 ≠ RResult.panicked := by
  have hkey := is_data_ready_spec bf bgn sz hbs hfsU hb hsz hnw hcov (by rw [hsync])
  refine ⟨?_, by rw [hkey]; intro hcon; exact absurd hcon (by simp)⟩
  rw [hkey]
  have hy1 : bgn + 1 ≤ min (bgn + sz) bf.header.file_size := by omega
  have hbe : bgn / bf.header.block_size ≤
      (min (bgn + sz) bf.header.file_size - 1) / bf.header.block_size :=
    Nat.div_le_div_right (by omega)
  constructor
  · intro h i hbi hiy
    have hall : (List.range
        ((min (bgn + sz) bf.header.file_size - 1) / bf.header.block_size + 1 -
          bgn / bf.header.block_size)).all
        (fun j => (bf.file.table.getD (bgn / bf.header.block_size + j) default).used)
        = true := by injection h
    rw [List.all_eq_true] at hall
    have hie : i ≤ (min (bgn + sz) bf.header.file_size - 1) / bf.header.block_size :=
      (le_lastBlock_iff bf.header.block_size i _ hbs (by omega)).mpr hiy
    have := hall _ (List.mem_range.mpr
      (show i - bgn / bf.header.block_size <
        (min (bgn + sz) bf.header.file_size - 1) / bf.header.block_size + 1 -
          bgn / bf.header.block_size by omega))
    simpa [show bgn / bf.header.block_size + (i - bgn / bf.header.block_size) = i
      by omega] using this
  · intro hall
    have : (List.range
        ((min (bgn + sz) bf.header.file_size - 1) / bf.header.block_size + 1 -
          bgn / bf.header.block_size)).all
        (fun j => (bf.file.table.getD (bgn / bf.header.block_size + j) default).used)
        = true := by
      rw [List.all_eq_true]
      intro j hj
      rw [List.mem_range] at hj
      refine hall (bgn / bf.header.block_size + j) (by omega) ?_
      exact (le_lastBlock_iff bf.header.block_size _ _ hbs (by omega)).mp (by omega)
    rw [this]

/-- C6 witness: `create(100, 16)` with the first block fully written:
`is_data_ready(0, 20)` touches blocks 0 and 1, block 1 is a hole, so the
call completes without panicking (and in fact returns `Ok(false)`). -/
def readyFile : BlockFile :=
  (((BlockFile.create 100 16).write (List.replicate 16 65) 0 20).map (fun r => r.2)).getD
    (BlockFile.create 100 16)

theorem C6_ready_iff_blocks_used_witness :
    (readyFile.is_data_ready 0 20).1 ≠ RResult.panicked :=
  (C6_ready_iff_blocks_used readyFile 0 20 (by decide) (by decide) (by decide)
    (by decide) (by decide) (by decide) (by decide)).2

/-- Shape of one read iteration below the bound: either it exits with a
panic or an error, or it serves bytes from the single used block holding the
current offset — never crossing into the next block, and never touching the
stored table or the file contents. -/
theorem readStep_shape (off endB : Nat) (bf : BlockFile) (buf : List UInt8) (total : Nat)
    (ht : total < endB) (hoc : off + total < U64) :
    (∃ r s', BlockFile.readStep off endB (bf, buf, total) = .done r s' ∧
      ∀ v, r ≠ RResult.ok v) ∨
    ∃ bf' buf' got,
      BlockFile.readStep off endB (bf, buf, total) = .next (bf', buf', total + got) ∧
      bf'.file = bf.file ∧
      bf'.header.block_size = bf.header.block_size ∧
      bf'.header.block_info_list.length = bf.header.block_info_list.length ∧
      bf.header.block_size ≠ 0 ∧
      ((bf.file.table.getD ((off + total) / bf.header.block_size) default).used = true) ∧
      got ≤ bf.header.block_size - (off + total) % bf.header.block_size := by
  have hoc' : (off + total) % U64 = off + total := Nat.mod_eq_of_lt hoc
  unfold BlockFile.readStep
  dsimp only
  rw [if_pos ht, hoc']
  split
  · exact .inl ⟨_, _, rfl, by intro v h; exact absurd h (by simp)⟩
  · rename_i hbs
    split
    · split
      · rename_i hidx hfidx
        by_cases hu : (bf.file.table.getD ((off + total) / bf.header.block_size)
            default).used = true
        · rw [if_pos hu]
          refine .inr ⟨_, _, _, rfl, rfl, rfl, by simp, hbs, hu, ?_⟩
          have hgle : min (min buf.length
              (total + bf.header.block_size - (off + total) % bf.header.block_size)
              - total) (bf.file.len -
                ((bf.header.get_header_size +
                  (bf.file.table.getD ((off + total) / bf.header.block_size)
                    default).block_index * bf.header.block_size +
                  (off + total) % bf.header.block_size % bf.header.block_size) % U64)) ≤
              min buf.length
              (total + bf.header.block_size - (off + total) % bf.header.block_size)
              - total := Nat.min_le_left _ _
          omega
        · rw [if_neg hu]
          exact .inl ⟨_, _, rfl, by intro v h; exact absurd h (by simp)⟩
      · exact .inl ⟨_, _, rfl, by intro v h; exact absurd h (by simp)⟩
    · exact .inl ⟨_, _, rfl, by intro v h; exact absurd h (by simp)⟩

/-- If the read loop returns `Ok`, every logical block holding a byte of the
still-unread part of the range `[total, endB)` had `used = true` in the
stored table. -/
theorem readLoop_used_of_ok (off endB : Nat) :
    ∀ fuel bf buf total r bf2,
      off + endB ≤ U64 →
      BlockFile.readLoop off endB fuel (bf, buf, total) = some (RResult.ok r, bf2) →
      ∀ j, total ≤ j → j < endB →
        ((bf.file.table.getD ((off + j) / bf.header.block_size) default).used = true) := by
  intro fuel
  induction fuel with
  | zero =>
    intro bf buf total r bf2 hnw h
    exact absurd h (by simp [BlockFile.readLoop])
  | succ n ih =>
    intro bf buf total r bf2 hnw h j hj1 hj2
    rw [BlockFile.readLoop] at h
    have ht : total < endB := by omega
    rcases readStep_shape off endB bf buf total ht (by omega) with
      ⟨r0, s', hs, hno⟩ | ⟨bf', buf', got, hs, hfile, hbs', hlen', hbs0, hused, hbound⟩
    · rw [hs] at h
      have : r0 = RResult.ok r := by
        injection h with h1
        injection h1
      exact absurd this (hno r)
    · rw [hs] at h
      by_cases hjg : j < total + got
      · have hdm := Nat.div_add_mod (off + total) bf.header.block_size
        have hml : (off + total) % bf.header.block_size < bf.header.block_size :=
          Nat.mod_lt _ (Nat.pos_iff_ne_zero.mpr hbs0)
        have hc : bf.header.block_size * ((off + total) / bf.header.block_size) =
            (off + total) / bf.header.block_size * bf.header.block_size :=
          Nat.mul_comm _ _
        have hdiv : (off + j) / bf.header.block_size =
            (off + total) / bf.header.block_size := by
          have hlo : (off + total) / bf.header.block_size * bf.header.block_size ≤
              off + j := by omega
          have hhi : off + j < ((off + total) / bf.header.block_size + 1) *
              bf.header.block_size := by
            have hexp : ((off + total) / bf.header.block_size + 1) *
                bf.header.block_size =
              (off + total) / bf.header.block_size * bf.header.block_size +
                bf.header.block_size := by ring
            omega
          exact Nat.div_eq_of_lt_le hlo hhi
        rw [hdiv]
        exact hused
      · have := ih bf' buf' (total + got) r bf2 hnw h j (by omega) hj2
        rwa [hfile, hbs'] at this

/-- C3, amended.  A read call that returns `Ok` never served a hole: every
logical block intersecting the requested range clipped to the logical size
was marked used in the stored table.  (A read that does touch a hole either
fails — or, when an earlier under-filled block pins the cursor at end of
file, loops forever without returning, as the counterexample shows.) -/
theorem C3_read_ok_requires_used (bf : BlockFile) (buf : List UInt8) (off fuel : Nat)
    (r : Nat × List UInt8)
    (hfsU : bf.header.file_size ≤ U64)
    (hok : (bf.read buf off fuel).map (fun p => p.1) = some (RResult.ok r)) :
    ∀ j, j < min buf.length (bf.header.file_size - off) →
      ((bf.file.table.getD ((off + j) / bf.header.block_size) default).used = true) := by
  intro j hj
  unfold BlockFile.read at hok
  by_cases hoff : bf.header.file_size < off
  · rw [if_pos hoff] at hok
    simp at hok
  · rw [if_neg hoff] at hok
    obtain ⟨p, hp, hp1⟩ := Option.map_eq_some'.mp hok
    obtain ⟨r', bf2⟩ := p
    have hr' : r' = RResult.ok r := hp1
    rw [hr'] at hp
    refine readLoop_used_of_ok off (min buf.length (bf.header.file_size - off)) fuel
      bf buf 0 r bf2 ?_ hp j (by omega) hj
    have : min buf.length (bf.header.file_size - off) ≤ bf.header.file_size - off :=
      Nat.min_le_right _ _
    omega

/-- C3 witness: `holeFileExtended` (block 0 under-filled but the file long
enough, block 1 full) serves a 16-byte read successfully, and the theorem
then certifies block 0 was marked used. -/
theorem C3_read_ok_requires_used_witness :
    (holeFileExtended.file.table.getD 0 default).used = true :=
  C3_read_ok_requires_used holeFileExtended (List.replicate 16 0) 0 17
    (16, [1, 1, 1, 1, 1] ++ List.replicate 11 0) (by decide) (by decide) 0 (by decide)

/-- `getD` after `List.set`. -/
theorem getD_set {α : Type} (d : α) :
    ∀ (l : List α) (i p : Nat) (a : α),
    (l.set i a).getD p d = if i = p ∧ i < l.length then a else l.getD p d := by
  intro l
  induction l with
  | nil => intro i p a; simp [List.set]
  | cons x xs ih =>
    intro i p a
    cases i with
    | zero =>
      cases p with
      | zero => simp
      | succ q => simp [List.getD_cons_succ]
    | succ i' =>
      cases p with
      | zero => simp [List.getD_cons_zero]
      | succ q =>
        simp only [List.set, List.getD_cons_succ, List.length_cons]
        rw [ih i' q a]
        by_cases h : i' = q ∧ i' < xs.length
        · rw [if_pos h, if_pos (by omega)]
        · rw [if_neg h, if_neg (by omega)]

/-- Length is unchanged by `fillAt`. -/
theorem fillAt_length :
    ∀ (chunk buf : List UInt8) (pos : Nat), (fillAt buf pos chunk).length = buf.length := by
  intro chunk
  induction chunk with
  | nil => intro buf pos; rfl
  | cons b rest ih =>
    intro buf pos
    rw [fillAt, ih, List.length_set]

/-- What `fillAt` leaves at each index. -/
theorem fillAt_getD :
    ∀ (chunk buf : List UInt8) (pos p : Nat),
    (fillAt buf pos chunk).getD p 0 =
      if pos ≤ p ∧ p < pos + chunk.length ∧ p < buf.length then chunk.getD (p - pos) 0
      else buf.getD p 0 := by
  intro chunk
  induction chunk with
  | nil =>
    intro buf pos p
    rw [if_neg (by rintro ⟨h1, h2, h3⟩; simp at h2; omega)]
    rfl
  | cons b rest ih =>
    intro buf pos p
    rw [fillAt, ih, getD_set (0 : UInt8) buf pos p b]
    by_cases h1 : pos + 1 ≤ p ∧ p < pos + 1 + rest.length ∧ p < (buf.set pos b).length
    · rw [if_pos h1]
      rw [List.length_set] at h1
      rw [if_pos (by simp only [List.length_cons]; omega)]
      have : p - pos = (p - (pos + 1)) + 1 := by omega
      rw [this, List.getD_cons_succ]
    · rw [if_neg h1]
      rw [List.length_set] at h1
      by_cases h2 : pos = p ∧ pos < buf.length
      · rw [if_pos h2, if_pos (by simp only [List.length_cons]; omega)]
        have : p - pos = 0 := by omega
        rw [this, List.getD_cons_zero]
      · rw [if_neg h2, if_neg (by simp only [List.length_cons]; omega)]

/-- `getD` on a mapped range. -/
theorem getD_range_map (f : Nat → UInt8) (n k : Nat) (h : k < n) :
    ((List.range n).map f).getD k 0 = f k := by
  rw [List.getD_eq_getElem _ _ (by simp [h])]
  simp

/-- A list whose entries below `n` are `f` and whose length is `n` is the
mapped range. -/
theorem eq_range_map_of_getD (l : List UInt8) (n : Nat) (f : Nat → UInt8)
    (hlen : l.length = n) (h : ∀ j, j < n → l.getD j 0 = f j) :
    l = (List.range n).map f := by
  refine List.ext_getElem (by simp [hlen]) ?_
  intro i h1 h2
  have h3 : i < n := by omega
  have := h i h3
  rw [List.getD_eq_getElem _ _ (by omega)] at this
  rw [this]
  simp

/-- The absolute file position that logical byte `off + j` is served from:
header size, the physical slot of the byte's block, the in-block cursor. -/
def BlockFile.posOf (bf : BlockFile) (off j : Nat) : Nat :=
  20 + bf.header.block_info_list.length * 9 +
    (bf.file.table.getD ((off + j) / bf.header.block_size) default).block_index *
      bf.header.block_size + (off + j) % bf.header.block_size

/-- The read loop succeeds and returns the stored bytes when every byte of
the remaining range lies in a used block whose slot bytes are within the
physical file: the buffer comes back with `file.data` at each mapped
position. -/
theorem readLoop_ok (off endB : Nat) :
    ∀ fuel bf buf total,
      bf.file.table.length = bf.header.block_info_list.length →
      0 < bf.header.block_size →
      bf.header.block_info_list.length < U32 →
      off + endB ≤ U64 →
      buf.length = endB →
      bf.file.len ≤ U64 →
      (∀ j, total ≤ j → j < endB →
        (off + j) / bf.header.block_size < bf.header.block_info_list.length ∧
        ((bf.file.table.getD ((off + j) / bf.header.block_size) default).used = true) ∧
        bf.posOf off j < bf.file.len) →
      total ≤ endB →
      endB - total < fuel →
      ∃ buf2 bf2,
        BlockFile.readLoop off endB fuel (bf, buf, total) =
          some (RResult.ok (endB, buf2), bf2) ∧
        buf2.length = endB ∧
        ∀ j, j < endB →
          buf2.getD j 0 =
            if total ≤ j then bf.file.data (bf.posOf off j) else buf.getD j 0 := by
  intro fuel
  induction fuel with
  | zero =>
    intro bf buf total _ _ _ _ _ _ _ _ hfuel
    exact absurd hfuel (by omega)
  | succ n ih =>
    intro bf buf total hlen2 hbs hN hnw hbuflen hlenU hblocks htot hfuel
    by_cases htb : total < endB
    · obtain ⟨hidx, hused, hpos⟩ := hblocks total (le_refl total) htb
      set bs := bf.header.block_size with hbsdef
      have hbsne : ¬ bs = 0 := Nat.pos_iff_ne_zero.mp hbs
      set idx := (off + total) / bs with hidxdef
      set cursor := (off + total) % bs with hcurdef
      have hocU : (off + total) % U64 = off + total := Nat.mod_eq_of_lt (by omega)
      have hhsU : (20 + bf.header.block_info_list.length * 9) % U64 =
          20 + bf.header.block_info_list.length * 9 := by
        refine Nat.mod_eq_of_lt ?_
        have h9 : bf.header.block_info_list.length * 9 < U32 * 9 := by omega
        have h32 : U32 * 9 + 20 < U64 := by decide
        omega
      have hcc : cursor % bs = cursor := by
        rw [hcurdef]
        exact Nat.mod_mod_of_dvd _ dvd_rfl
      have hml : cursor < bs := by
        rw [hcurdef]
        exact Nat.mod_lt _ hbs
      have hdm : bs * idx + cursor = off + total := by
        rw [hidxdef, hcurdef]
        exact Nat.div_add_mod _ _
      have hcomm : bs * idx = idx * bs := Nat.mul_comm _ _
      have hposfold : bf.posOf off total =
          20 + bf.header.block_info_list.length * 9 +
            (bf.file.table.getD idx default).block_index * bs + cursor := by
        unfold BlockFile.posOf
        rw [← hbsdef, ← hidxdef, ← hcurdef]
      have hposU : (20 + bf.header.block_info_list.length * 9 +
          (bf.file.table.getD idx default).block_index * bs + cursor) % U64 =
          bf.posOf off total := by
        have hp2 := hpos
        rw [hposfold] at hp2
        rw [hposfold]
        exact Nat.mod_eq_of_lt (by omega)
      set endIndex := min buf.length (total + bs - cursor) with heidef
      set req := endIndex - total with hreqdef
      have hreq1 : 1 ≤ req := by omega
      have hreqle : total + req ≤ endB := by omega
      have hsame : ∀ j, total ≤ j → j < endIndex →
          (off + j) / bs = idx ∧ (off + j) % bs = cursor + (j - total) := by
        intro j hj1 hj2
        have hlo : idx * bs ≤ off + j := by omega
        have hhi : off + j < (idx + 1) * bs := by
          have hexp : (idx + 1) * bs = idx * bs + bs := by ring
          omega
        have hdivj : (off + j) / bs = idx := Nat.div_eq_of_lt_le hlo hhi
        refine ⟨hdivj, ?_⟩
        have h2 := Nat.div_add_mod (off + j) bs
        rw [hdivj] at h2
        omega
      have hposj : ∀ j, total ≤ j → j < endIndex →
          bf.posOf off j = bf.posOf off total + (j - total) := by
        intro j hj1 hj2
        obtain ⟨h1, h2⟩ := hsame j hj1 hj2
        unfold BlockFile.posOf
        rw [← hbsdef, h1, ← hidxdef, ← hcurdef]
        omega
      have havail : req ≤ bf.file.len - bf.posOf off total := by
        have hlast := (hblocks (total + req - 1) (by omega) (by omega)).2.2
        have hpj := hposj (total + req - 1) (by omega) (by omega)
        omega
      have hgot : min req (bf.file.len - bf.posOf off total) = req :=
        Nat.min_eq_left havail
      have hstep : BlockFile.readStep off endB (bf, buf, total) =
          Step.next
            (⟨⟨bf.header.block_info_list.set idx
                ⟨idx, (bf.file.table.getD idx default).used,
                  (bf.file.table.getD idx default).block_index,
                  (bf.file.table.getD idx default).usage⟩,
                bf.header.file_size, bs, bf.header.next_block_index⟩, bf.file⟩,
              fillAt buf total ((List.range req).map
                (fun k => bf.file.data (bf.posOf off total + k))),
              total + req) := by
        unfold BlockFile.readStep
        dsimp only
        rw [if_pos htb, hocU]
        simp only [← hbsdef, ← hidxdef, ← hcurdef]
        rw [if_neg hbsne]
        rw [if_pos hidx]
        rw [if_pos (by rw [hlen2]; exact hidx)]
        rw [if_pos hused]
        unfold BlockFileHeader.get_header_size
        simp only [hhsU, hcc, hposU, ← heidef, ← hreqdef, hgot]
      rw [BlockFile.readLoop, hstep]
      dsimp only
      obtain ⟨buf2, bf2, hrun, hlenb2, hval⟩ :=
        ih ⟨⟨bf.header.block_info_list.set idx
              ⟨idx, (bf.file.table.getD idx default).used,
                (bf.file.table.getD idx default).block_index,
                (bf.file.table.getD idx default).usage⟩,
              bf.header.file_size, bs, bf.header.next_block_index⟩, bf.file⟩
          (fillAt buf total ((List.range req).map
            (fun k => bf.file.data (bf.posOf off total + k))))
          (total + req)
          (by simpa using hlen2)
          hbs (by simpa using hN) hnw
          (by rw [fillAt_length]; exact hbuflen)
          hlenU
          (by
            intro j hj1 hj2
            obtain ⟨g1, g2, g3⟩ := hblocks j (by omega) hj2
            refine ⟨by simpa using g1, g2, ?_⟩
            show BlockFile.posOf _ off j < bf.file.len
            unfold BlockFile.posOf at g3 ⊢
            simpa using g3)
          hreqle (by omega)
      refine ⟨buf2, bf2, hrun, hlenb2, ?_⟩
      intro j hj
      rw [hval j hj]
      by_cases hj2 : total + req ≤ j
      · rw [if_pos hj2, if_pos (by omega)]
        unfold BlockFile.posOf
        dsimp only
        rw [List.length_set, ← hbsdef]
      · by_cases hj1 : total ≤ j
        · rw [if_neg hj2, if_pos hj1]
          rw [fillAt_getD]
          rw [if_pos (by
            refine ⟨hj1, ?_, by omega⟩
            simp only [List.length_map, List.length_range]
            omega)]
          rw [getD_range_map _ req (j - total) (by omega)]
          show bf.file.data (bf.posOf off total + (j - total)) =
            bf.file.data (bf.posOf off j)
          rw [hposj j hj1 (by omega)]
        · rw [if_neg hj2, if_neg hj1]
          rw [fillAt_getD]
          rw [if_neg (by rintro ⟨h1, _, _⟩; omega)]
    · have hte : total = endB := by omega
      subst hte
      rw [BlockFile.readLoop]
      rw [show BlockFile.readStep off total (bf, buf, total) =
          Step.done (RResult.ok (total, buf)) (bf, buf, total) from by
        unfold BlockFile.readStep
        dsimp only
        rw [if_neg (by omega)]]
      refine ⟨buf, bf, rfl, hbuflen, ?_⟩
      intro j hj
      rw [if_neg (by omega)]

/-- C4, amended.  When every block touched by the read lies within the
physical file (each touched byte's slot position below `file.len` — e.g.
because later slots were written past it), a read over an under-filled used
block terminates and returns exactly the stored bytes: what was actually
written there, and zero for gap bytes nothing ever landed on.  (When the
under-filled slot is cut off by end of file instead, the read never returns
— the counterexample.) -/
theorem C4_read_returns_stored_bytes (bf : BlockFile) (buf : List UInt8) (off : Nat)
    (hlen2 : bf.file.table.length = bf.header.block_info_list.length)
    (hbs : 0 < bf.header.block_size)
    (hN : bf.header.block_info_list.length < U32)
    (hcap : off + buf.length ≤ bf.header.file_size)
    (hfsU : bf.header.file_size ≤ U64)
    (hlenU : bf.file.len ≤ U64)
    (hblocks : ∀ j, j < buf.length →
      (off + j) / bf.header.block_size < bf.header.block_info_list.length ∧
      ((bf.file.table.getD ((off + j) / bf.header.block_size) default).used = true) ∧
      bf.posOf off j < bf.file.len) :
    (bf.read buf off (buf.length + 1)).map (fun p => p.1) =
      some (RResult.ok (buf.length,
        (List.range buf.length).map (fun j => bf.file.data (bf.posOf off j)))) := by
  have hmin : min buf.length (bf.header.file_size - off) = buf.length :=
    Nat.min_eq_left (by omega)
  unfold BlockFile.read
  rw [if_neg (by omega), hmin]
  obtain ⟨buf2, bf2, hrun, hlen, hval⟩ :=
    readLoop_ok off buf.length (buf.length + 1) bf buf 0 hlen2 hbs hN (by omega) rfl
      hlenU (fun j _ hj => hblocks j hj) (by omega) (by omega)
  rw [hrun]
  have hbuf2 : buf2 = (List.range buf.length).map (fun j => bf.file.data (bf.posOf off j)) := by
    refine eq_range_map_of_getD buf2 buf.length _ hlen ?_
    intro j hj
    rw [hval j hj, if_pos (by omega)]
  rw [hbuf2]
  rfl

/-- C4 witness: on `holeFileExtended` (block 0 holds 5 bytes, the file
extended past its slot by block 1's write) the 16-byte read at offset 0
returns the 5 landed bytes followed by 11 zeroes. -/
theorem C4_read_returns_stored_bytes_witness :
    (holeFileExtended.read (List.replicate 16 0) 0 17).map (fun p => p.1) =
      some (RResult.ok (16, [1, 1, 1, 1, 1] ++ List.replicate 11 0)) :=
  C4_read_returns_stored_bytes holeFileExtended (List.replicate 16 0) 0 (by decide)
    (by decide) (by decide) (by decide) (by decide) (by decide) (by decide)

/-! ## Physical packing (claim C8) -/

/-- The physical indices assigned to the used entries of a table, in table
order. -/
def usedIdx (l : List BlockInfo) : List Nat :=
  (l.filter (fun e => e.used)).map (fun e => e.block_index)

/-- The packing invariant of I2/P3: the used entries' physical indices are
exactly `{0, …, k-1}` for `k` the number of used entries, and the next
index to assign is `k`. -/
def packed (l : List BlockInfo) (next : Nat) : Prop :=
  (usedIdx l).toFinset = Finset.range (usedIdx l).length ∧ next = (usedIdx l).length

/-- Rewriting a used entry without changing its flag or physical index
leaves `usedIdx` unchanged. -/
theorem usedIdx_set_used :
    ∀ (l : List BlockInfo) (idx : Nat) (e : BlockInfo),
      (l.getD idx default).used = true → e.used = true →
      e.block_index = (l.getD idx default).block_index →
      usedIdx (l.set idx e) = usedIdx l := by
  intro l
  induction l with
  | nil => intro idx e _ _ _; rfl
  | cons x xs ih =>
    intro idx e hold he hbi
    cases idx with
    | zero =>
      simp only [List.getD_cons_zero] at hold hbi
      simp only [List.set]
      unfold usedIdx
      simp only [List.filter_cons, hold, he, if_pos, List.map_cons]
      rw [hbi]
    | succ i =>
      simp only [List.getD_cons_succ] at hold hbi
      simp only [List.set]
      unfold usedIdx
      simp only [List.filter_cons]
      by_cases hx : x.used
      · rw [if_pos hx, if_pos hx]
        simp only [List.map_cons]
        have hrec := ih i e hold he hbi
        unfold usedIdx at hrec
        rw [hrec]
      · rw [if_neg hx, if_neg hx]
        have hrec := ih i e hold he hbi
        unfold usedIdx at hrec
        exact hrec

/-- Marking a previously unused entry used inserts its physical index into
`usedIdx`, up to permutation. -/
theorem usedIdx_set_fresh :
    ∀ (l : List BlockInfo) (idx : Nat) (e : BlockInfo), idx < l.length →
      (l.getD idx default).used = false → e.used = true →
      (usedIdx (l.set idx e)).Perm (e.block_index :: usedIdx l) := by
  intro l
  induction l with
  | nil => intro idx e h; simp at h
  | cons x xs ih =>
    intro idx e hidx hold he
    cases idx with
    | zero =>
      simp only [List.getD_cons_zero] at hold
      simp only [List.set]
      unfold usedIdx
      simp only [List.filter_cons, hold, he, if_pos, List.map_cons]
      simp [hold]
    | succ i =>
      simp only [List.getD_cons_succ] at hold
      simp only [List.length_cons] at hidx
      simp only [List.set]
      unfold usedIdx
      simp only [List.filter_cons]
      by_cases hx : x.used
      · rw [if_pos hx, if_pos hx]
        simp only [List.map_cons]
        have hp := ih i e (by omega) hold he
        unfold usedIdx at hp
        exact (hp.cons x.block_index).trans (List.Perm.swap _ _ _)
      · rw [if_neg hx, if_neg hx]
        have hp := ih i e (by omega) hold he
        unfold usedIdx at hp
        exact hp

/-- A table with an unused entry has strictly fewer used entries than
entries. -/
theorem usedIdx_length_lt (l : List BlockInfo) (idx : Nat) (hidx : idx < l.length)
    (hold : (l.getD idx default).used = false) : (usedIdx l).length < l.length := by
  unfold usedIdx
  rw [List.length_map]
  refine List.length_filter_lt_length_iff_exists.mpr ?_
  refine ⟨l.getD idx default, ?_, by simp only [hold]; exact Bool.false_ne_true⟩
  rw [List.getD_eq_getElem _ _ hidx]
  exact List.mem_iff_getElem.mpr ⟨idx, hidx, rfl⟩

/-- Allocation step: marking an unused entry used with `block_index = next`
preserves packing, bumping `next` (no `u32` wrap below `2^32` entries). -/
theorem packed_alloc (l : List BlockInfo) (next idx : Nat) (e : BlockInfo)
    (hidx : idx < l.length) (hold : (l.getD idx default).used = false)
    (he : e.used = true) (hbi : e.block_index = next) (hN : l.length < U32)
    (hp : packed l next) : packed (l.set idx e) ((next + 1) % U32) := by
  obtain ⟨hfin, hnext⟩ := hp
  have hperm := usedIdx_set_fresh l idx e hidx hold he
  have hlen : (usedIdx (l.set idx e)).length = (usedIdx l).length + 1 := by
    rw [hperm.length_eq]
    rfl
  have hklt : (usedIdx l).length < l.length := usedIdx_length_lt l idx hidx hold
  constructor
  · rw [List.toFinset_eq_of_perm _ _ hperm, hlen, List.toFinset_cons, hbi, hnext, hfin, Finset.range_succ]
  · rw [hlen, ← hnext, Nat.mod_eq_of_lt (by omega)]

/-- Rewriting a used entry (same flag and physical index) preserves
packing. -/
theorem packed_set_used (l : List BlockInfo) (next idx : Nat) (e : BlockInfo)
    (hold : (l.getD idx default).used = true) (he : e.used = true)
    (hbi : e.block_index = (l.getD idx default).block_index)
    (hp : packed l next) : packed (l.set idx e) next := by
  obtain ⟨hfin, hnext⟩ := hp
  unfold packed
  rw [usedIdx_set_used l idx e hold he hbi]
  exact ⟨hfin, hnext⟩

/-- One continuing write iteration preserves the packing invariant. -/
theorem writeStep_next_packed (buf : List UInt8) (off : Nat) (s s' : BlockFile × Nat)
    (hN : s.1.header.block_info_list.length < U32)
    (hp : packed s.1.header.block_info_list s.1.header.next_block_index)
    (heq : BlockFile.writeStep buf off s = .next s') :
    packed s'.1.header.block_info_list s'.1.header.next_block_index := by
  unfold BlockFile.writeStep at heq
  dsimp only at heq
  split at heq
  · split at heq
    · exact absurd heq (by simp)
    · split at heq
      · rename_i ht hbs hidx
        obtain rfl := (Step.next.inj heq).symm
        dsimp only
        by_cases hu : (s.1.header.block_info_list.getD
            ((off + s.2) % U64 / s.1.header.block_size) default).used = true
        · rw [if_pos hu, if_pos hu]
          exact packed_set_used _ _ _ _ hu hu rfl hp
        · rw [if_neg hu, if_neg hu]
          refine packed_alloc _ _ _ _ hidx ?_ rfl rfl hN hp
          rwa [Bool.not_eq_true] at hu
      · exact absurd heq (by simp)
  · exact absurd heq (by simp)

/-- The write loop preserves the packing invariant. -/
theorem writeLoop_packed (buf : List UInt8) (off : Nat) :
    ∀ fuel s r bf2,
      s.1.header.block_info_list.length < U32 →
      packed s.1.header.block_info_list s.1.header.next_block_index →
      BlockFile.writeLoop buf off fuel s = some (r, bf2) →
      packed bf2.header.block_info_list bf2.header.next_block_index := by
  intro fuel
  induction fuel with
  | zero => intro s r bf2 _ _ h; exact absurd h (by simp [BlockFile.writeLoop])
  | succ n ih =>
    intro s r bf2 hN hp h
    rw [BlockFile.writeLoop] at h
    rcases writeStep_shape buf off s with ⟨r0, hs⟩ | ⟨s', hs, h1, _, _, _⟩
    · rw [hs] at h
      obtain ⟨_, hbf⟩ : r0 = r ∧ s.1 = bf2 := by
        constructor <;> { injection h with h5; injection h5 }
      exact hbf ▸ hp
    · rw [hs] at h
      exact ih s' r bf2 (by omega) (writeStep_next_packed buf off s s' hN hp hs) h

/-- C8.  The packing invariant — used entries' physical indices are exactly
`{0, …, k-1}` for `k` the number of used entries, with `next_block_index =
k` — holds on a freshly created header and is preserved by every write, for
tables below `2^32` entries (`next_block_index` is a `u32`; the
counterexample shows the wrap at exactly `2^32` written blocks). -/
theorem C8_packing_preserved (L bsz : Nat) (bf : BlockFile) (buf : List UInt8)
    (off fuel : Nat) (r : RResult Nat) (bf2 : BlockFile)
    (hN : bf.header.block_info_list.length < U32)
    (hp : packed bf.header.block_info_list bf.header.next_block_index)
    (hw : bf.write buf off fuel = some (r, bf2)) :
    packed (BlockFileHeader.new L bsz).block_info_list
      (BlockFileHeader.new L bsz).next_block_index ∧
    packed bf2.header.block_info_list bf2.header.next_block_index := by
  constructor
  · have hnil : usedIdx (BlockFileHeader.new L bsz).block_info_list = [] := by
      unfold usedIdx BlockFileHeader.new
      dsimp only
      rw [List.filter_eq_nil_iff.mpr ?_]
      · rfl
      · intro e he
        rw [List.mem_map] at he
        obtain ⟨i, _, rfl⟩ := he
        exact Bool.false_ne_true
    constructor
    · rw [hnil]
      rfl
    · rw [hnil]
      rfl
  · exact writeLoop_packed buf off fuel (bf, 0) r bf2 hN hp hw

/-- The state written by the C8 witness: a fresh two-block file after one
two-byte write. -/
def packFile : BlockFile :=
  (((BlockFile.create 32 16).write [7, 8] 0 3).map (fun p => p.2)).getD
    (BlockFile.create 32 16)

/-- C8 witness: the invariant holds on the freshly created header and on the
state after writing two bytes at offset 0 of a `create(32, 16)` file. -/
theorem C8_packing_preserved_witness :
    packed (BlockFileHeader.new 32 16).block_info_list
      (BlockFileHeader.new 32 16).next_block_index ∧
    packed packFile.header.block_info_list packFile.header.next_block_index :=
  C8_packing_preserved 32 16 (BlockFile.create 32 16) [7, 8] 0 3 (RResult.ok 2) packFile
    (by decide) (by unfold packed; decide) (by rfl)

/-- `(List.range n).toFinset = Finset.range n`. -/
theorem toFinset_list_range (n : Nat) : (List.range n).toFinset = Finset.range n := by
  ext x
  simp

/-- Mapping the identity function leaves a list unchanged. -/
theorem map_self {α : Type} (l : List α) : l.map (fun a => a) = l := by
  induction l with
  | nil => rfl
  | cons a t ih => simp only [List.map_cons, ih]

/-- A table at the `u32` limit: `2^32` entries, the first `2^32 - 1` of them
used with `block_index` equal to their position, the last one unused. -/
def bigTable : List BlockInfo :=
  (List.range U32).map (fun i => ⟨i, decide (i < U32 - 1), i, 0⟩)

theorem bigTable_length : bigTable.length = U32 := by
  unfold bigTable
  rw [List.length_map, List.length_range]

theorem bigTable_getD_last :
    bigTable.getD (U32 - 1) default = ⟨U32 - 1, false, U32 - 1, 0⟩ := by
  rw [List.getD_eq_getElem _ _ (by rw [bigTable_length]; decide)]
  unfold bigTable
  simp only [List.getElem_map, List.getElem_range]
  rw [show decide (U32 - 1 < U32 - 1) = false from by decide]

/-- The used physical indices of `bigTable` are exactly `0 … 2^32 - 2`. -/
theorem usedIdx_bigTable : usedIdx bigTable = List.range (U32 - 1) := by
  have h1 : usedIdx bigTable =
      ((List.range U32).filter (fun i => decide (i < U32 - 1))).map (fun i => i) := by
    unfold usedIdx bigTable
    rw [List.filter_map, List.map_map]
    rfl
  rw [h1]
  have h2 : List.range U32 = List.range (U32 - 1) ++ [U32 - 1] := by
    rw [← List.range_succ]
    exact congrArg List.range (by decide)
  have h3 : (List.range (U32 - 1)).filter (fun i => decide (i < U32 - 1)) =
      List.range (U32 - 1) :=
    List.filter_eq_self.mpr (fun a ha => by simpa using List.mem_range.mp ha)
  have h4 : [U32 - 1].filter (fun i => decide (i < U32 - 1)) = [] := by decide
  rw [h2, List.filter_append, h3, h4, List.append_nil, map_self]

theorem packed_bigTable : packed bigTable (U32 - 1) := by
  constructor
  · rw [usedIdx_bigTable, toFinset_list_range, List.length_range]
  · rw [usedIdx_bigTable, List.length_range]

/-- One write iteration on a block-size-1 file at offset `2^32 - 1`, hitting
an unused entry while `next_block_index = nb`: the entry is allocated with
physical index `nb` and the counter moves to `(nb + 1) % 2^32`
(the `u32` wrap). -/
theorem writeStep_wrap (tbl ftbl : List BlockInfo) (fs nb len hs : Nat)
    (data : Nat → UInt8)
    (hlt : U32 - 1 < tbl.length)
    (hget : tbl.getD (U32 - 1) default = ⟨U32 - 1, false, U32 - 1, 0⟩)
    (hhs : (20 + tbl.length * 9) % U64 = hs) :
    BlockFile.writeStep [37] (U32 - 1) (⟨⟨tbl, fs, 1, nb⟩, ⟨ftbl, len, data⟩⟩, 0) =
      .next (⟨⟨tbl.set (U32 - 1) ⟨U32 - 1, true, nb, 1⟩, fs, 1, (nb + 1) % U32⟩,
        ⟨ftbl.set (U32 - 1) ⟨U32 - 1, true, nb, 1⟩, max len ((hs + nb) % U64 + 1),
          storeBytes data ((hs + nb) % U64) [37]⟩⟩, 1) := by
  unfold BlockFile.writeStep
  dsimp only
  rw [if_pos (show (0:Nat) < ([37] : List UInt8).length from by decide)]
  rw [if_neg (show ¬ (1:Nat) = 0 from by decide)]
  rw [show (U32 - 1 + 0) % U64 / 1 = U32 - 1 from by decide]
  rw [show (U32 - 1 + 0) % U64 % 1 = 0 from by decide]
  rw [if_pos hlt]
  rw [hget]
  rw [show BlockFileHeader.get_header_size ⟨tbl, fs, 1, nb⟩ = hs from by
    unfold BlockFileHeader.get_header_size
    exact hhs]
  simp only [Nat.mul_one, Nat.add_zero, Nat.zero_mod, Nat.sub_zero]
  rfl

/-- A write iteration whose running total already covers the buffer
finishes with `Ok(total)`. -/
theorem writeStep_done_full (buf : List UInt8) (off : Nat) (s : BlockFile × Nat)
    (h : ¬ s.2 < buf.length) :
    BlockFile.writeStep buf off s = .done (.ok s.2) s := by
  unfold BlockFile.writeStep
  dsimp only
  rw [if_neg h]

/-- Two units of fuel: one continuing iteration followed by a finishing
one. -/
theorem writeLoop_two (buf : List UInt8) (off : Nat) (s s2 s3 : BlockFile × Nat)
    (r : RResult Nat)
    (h1 : BlockFile.writeStep buf off s = .next s2)
    (h2 : BlockFile.writeStep buf off s2 = .done r s3) :
    BlockFile.writeLoop buf off 2 s = some (r, s3.1) := by
  show BlockFile.writeLoop buf off (1 + 1) s = some (r, s3.1)
  rw [BlockFile.writeLoop, h1]
  show BlockFile.writeLoop buf off (0 + 1) s2 = some (r, s3.1)
  rw [BlockFile.writeLoop, h2]

/-- The block file of the C8 counterexample: table `bigTable`, `block_size =
1`, `next_block_index = 2^32 - 1` — a perfectly packed state one allocation
away from the `u32` wrap. -/
def cex8 : BlockFile :=
  ⟨⟨bigTable, U32, 1, U32 - 1⟩, ⟨bigTable, 0, fun _ => 0⟩⟩

/-- `cex8` after writing one byte at offset `2^32 - 1`: the last entry is
allocated with physical index `2^32 - 1`, but `next_block_index` has wrapped
to `0`. -/
def cex8mid : BlockFile :=
  ⟨⟨bigTable.set (U32 - 1) ⟨U32 - 1, true, U32 - 1, 1⟩, U32, 1, (U32 - 1 + 1) % U32⟩,
    ⟨bigTable.set (U32 - 1) ⟨U32 - 1, true, U32 - 1, 1⟩,
      max 0 ((20 + U32 * 9 + (U32 - 1)) % U64 + 1),
      storeBytes (fun _ => 0) ((20 + U32 * 9 + (U32 - 1)) % U64) [37]⟩⟩

theorem cex8_eq : cex8 = ⟨⟨bigTable, U32, 1, U32 - 1⟩, ⟨bigTable, 0, fun _ => 0⟩⟩ := by
  simp only [cex8]

theorem cex8mid_eq : cex8mid =
    ⟨⟨bigTable.set (U32 - 1) ⟨U32 - 1, true, U32 - 1, 1⟩, U32, 1, (U32 - 1 + 1) % U32⟩,
      ⟨bigTable.set (U32 - 1) ⟨U32 - 1, true, U32 - 1, 1⟩,
        max 0 ((20 + U32 * 9 + (U32 - 1)) % U64 + 1),
        storeBytes (fun _ => 0) ((20 + U32 * 9 + (U32 - 1)) % U64) [37]⟩⟩ := by
  simp only [cex8mid]

theorem cex8_bil : cex8.header.block_info_list = bigTable := by
  simp only [cex8]

theorem cex8_nbi : cex8.header.next_block_index = U32 - 1 := by
  simp only [cex8]

theorem cex8mid_bil : cex8mid.header.block_info_list =
    bigTable.set (U32 - 1) ⟨U32 - 1, true, U32 - 1, 1⟩ := by
  simp only [cex8mid]

theorem cex8mid_nbi : cex8mid.header.next_block_index = 0 := by
  simp only [cex8mid]
  decide

theorem hstep1 : BlockFile.writeStep [37] (U32 - 1) (cex8, 0) = .next (cex8mid, 1) := by
  rw [cex8_eq, cex8mid_eq]
  exact writeStep_wrap bigTable bigTable U32 (U32 - 1) 0 (20 + U32 * 9) (fun _ => 0)
    (by rw [bigTable_length]; decide) bigTable_getD_last
    (by rw [bigTable_length]; decide)

theorem hstep2 : BlockFile.writeStep [37] (U32 - 1) (cex8mid, 1) =
    .done (.ok 1) (cex8mid, 1) :=
  writeStep_done_full [37] (U32 - 1) (cex8mid, 1) (by decide)

theorem cex8_write_eq : cex8.write [37] (U32 - 1) 2 = some (RResult.ok 1, cex8mid) :=
  writeLoop_two [37] (U32 - 1) (cex8, 0) (cex8mid, 1) (cex8mid, 1) (RResult.ok 1)
    hstep1 hstep2

/-- C8 counterexample: the literal claim — the packing invariant is
preserved by every successful write — fails at the `u32` limit.  `cex8` is
packed (`2^32` entries, the first `2^32 - 1` used, `next_block_index =
2^32 - 1`), a one-byte write at offset `2^32 - 1` succeeds with `Ok(1)`,
and the result is not packed: `2^32` entries are now used but
`next_block_index` has wrapped to `0`. -/
theorem C8_packing_breaks_at_u32_wrap :
    packed cex8.header.block_info_list cex8.header.next_block_index ∧
    cex8.write [37] (U32 - 1) 2 = some (RResult.ok 1, cex8mid) ∧
    ¬ packed cex8mid.header.block_info_list cex8mid.header.next_block_index := by
  refine ⟨?_, cex8_write_eq, ?_⟩
  · rw [cex8_bil, cex8_nbi]
    exact packed_bigTable
  · intro hp
    have h0 := hp.2
    rw [cex8mid_nbi, cex8mid_bil] at h0
    have hperm := usedIdx_set_fresh bigTable (U32 - 1) ⟨U32 - 1, true, U32 - 1, 1⟩
      (by rw [bigTable_length]; decide) (by rw [bigTable_getD_last]) rfl
    rw [hperm.length_eq, List.length_cons] at h0
    omega

/-! ## Round-trip (claim C1) -/

